import Mathlib

/- Verification of the mask/patch circuit-discovery engine of the auto-circuit
repository: the circuit-probing size loop (prune_algos/circuit_probing.py), the
same-under-knockout completeness training step
(metrics/completeness_metrics/train_same_under_knockouts.py), and the
threshold-for-size operation they share.

Modelling conventions.  A PruneScores artifact (Dict[str, Tensor], one score per
edge grouped by destination module) is modelled as a single flat List of
rationals: every operation verified here (elementwise t.where, thresholding over
the concatenation of all grouped tensors, per-entry mask forcing) acts either
elementwise or on the flattened concatenation, so the grouping is irrelevant.
Tensor entries are rationals; the inner gradient-training runs, the forward
passes of the model and the stochastic hard-concrete sampler live outside the
source files and are modelled as abstract parameters (a function from requested
size to learned scores, and rational-valued KL/sample-sum inputs), so every
theorem quantifies over all possible behaviours of those components. -/

namespace AutoCircuit

/-- Modelled from the spec: the function prune_scores_threshold (defined in
auto_circuit.utils.tensor_ops, which is not among the source files) returns, for
a target edge count k, "the score value v such that exactly k edges have
|score| >= v", tie-breaking consistently: the k-th largest absolute score over
the flattened concatenation of all score tensors. -/
def prune_scores_threshold (ps : List ℚ) (k : ℕ) : ℚ :=
  (List.insertionSort (· ≥ ·) (ps.map (fun x => |x|))).getD (k - 1) 0

/-- Absolute scores sorted in descending order, the intermediate list of the
threshold-for-size operation. -/
def sorted_abs (ps : List ℚ) : List ℚ :=
  List.insertionSort (· ≥ ·) (ps.map (fun x => |x|))

theorem prune_scores_threshold_eq_sorted_abs (ps : List ℚ) (k : ℕ) :
    prune_scores_threshold ps k = (sorted_abs ps).getD (k - 1) 0 := rfl

theorem sorted_abs_sorted (ps : List ℚ) : (sorted_abs ps).Sorted (· ≥ ·) :=
  List.sorted_insertionSort _ _

theorem sorted_abs_perm (ps : List ℚ) :
    (sorted_abs ps).Perm (ps.map (fun x => |x|)) :=
  List.perm_insertionSort _ _

theorem sorted_abs_length (ps : List ℚ) : (sorted_abs ps).length = ps.length :=
  ((sorted_abs_perm ps).length_eq).trans (List.length_map _ _)

/-- Counting entries at or above the k-th value of a descending-sorted list:
the first k entries all qualify and, when the entry just past the boundary is
strictly below the k-th value (no tie at the boundary), no later entry does. -/
theorem countP_ge_of_sorted_desc (s : List ℚ) (hs : s.Sorted (· ≥ ·)) (k : ℕ)
    (h1 : 1 ≤ k) (h2 : k ≤ s.length)
    (htie : k = s.length ∨ s.getD k 0 < s.getD (k - 1) 0) :
    s.countP (fun x => s.getD (k - 1) 0 ≤ x) = k := by
  have hk1 : k - 1 < s.length := lt_of_lt_of_le (Nat.sub_lt h1 one_pos) h2
  set v : ℚ := s.getD (k - 1) 0 with hv
  have hvget : v = s[k - 1] := List.getD_eq_getElem s 0 hk1
  have hpair := List.pairwise_iff_getElem.mp hs
  have hsplit : s.countP (fun x => v ≤ x)
      = (s.take k).countP (fun x => v ≤ x) + (s.drop k).countP (fun x => v ≤ x) := by
    conv_lhs => rw [← List.take_append_drop k s]
    exact List.countP_append _ _ _
  have htake_len : (s.take k).length = k := by
    rw [List.length_take]; exact min_eq_left h2
  have htake : (s.take k).countP (fun x => v ≤ x) = k := by
    have hall : ∀ a ∈ s.take k, decide (v ≤ a) = true := by
      intro a ha
      rcases List.mem_iff_getElem.mp ha with ⟨i, hi, rfl⟩
      have hi' : i < s.length := lt_of_lt_of_le (htake_len ▸ hi) h2
      rw [List.getElem_take]
      simp only [decide_eq_true_eq]
      rcases Nat.lt_or_ge i (k - 1) with hlt | hge
      · rw [hvget]; exact hpair i (k - 1) hi' hk1 hlt
      · have : i = k - 1 := le_antisymm (by have := htake_len ▸ hi; omega) hge
        subst this; rw [hvget]
    rw [List.countP_eq_length.mpr hall, htake_len]
  have hdrop : (s.drop k).countP (fun x => v ≤ x) = 0 := by
    rcases htie with heq | hlt
    · rw [heq, List.drop_length]; rfl
    · apply List.countP_eq_zero.mpr
      intro a ha
      rcases List.mem_iff_getElem.mp ha with ⟨j, hj, rfl⟩
      have hklen : k < s.length := by
        have := List.length_drop k s ▸ hj
        omega
      have hkj : k + j < s.length := by
        have := List.length_drop k s ▸ hj
        omega
      rw [List.getElem_drop]
      simp only [decide_eq_true_eq, not_le]
      have hsk : s[k + j] ≤ s[k] := by
        rcases Nat.eq_zero_or_pos j with rfl | hjpos
        · simp
        · exact hpair k (k + j) hklen hkj (by omega)
      have hskv : s[k] < v := by
        have := List.getD_eq_getElem s 0 hklen
        rw [← this]; exact hlt
      exact lt_of_le_of_lt hsk hskv
  rw [hsplit, htake, hdrop]
  omega

/-- Claim C8: for every score list and requested size k (1 <= k <= edge count),
the threshold-for-size operation returns a value v such that exactly k edges
satisfy |score| >= v, except at score-tie boundaries (excluded by the hypothesis
that the (k+1)-th largest absolute score, when it exists, is strictly below the
k-th); being a pure function of its input, repeated calls return the same
result. -/
theorem prune_scores_threshold_exact (ps : List ℚ) (k : ℕ)
    (h1 : 1 ≤ k) (h2 : k ≤ ps.length)
    (htie : k = ps.length ∨
      (sorted_abs ps).getD k 0 < (sorted_abs ps).getD (k - 1) 0) :
    ps.countP (fun x => prune_scores_threshold ps k ≤ |x|) = k := by
  have habs : ps.countP (fun x => prune_scores_threshold ps k ≤ |x|)
      = (ps.map (fun x => |x|)).countP (fun y => prune_scores_threshold ps k ≤ y) := by
    rw [List.countP_map]; rfl
  rw [habs, ← (sorted_abs_perm ps).countP_eq,
    prune_scores_threshold_eq_sorted_abs]
  exact countP_ge_of_sorted_desc (sorted_abs ps) (sorted_abs_sorted ps) k h1
    ((sorted_abs_length ps) ▸ h2) (by rw [sorted_abs_length]; exact htie)

/-- Witness for claim C8 at the concrete input ps = [1, -2, 3], k = 2: the
threshold is 2 and exactly two scores have absolute value at least 2. -/
theorem prune_scores_threshold_exact_witness :
    List.countP (fun x => prune_scores_threshold [1, -2, 3] 2 ≤ |x|) [1, -2, 3] = 2 :=
  prune_scores_threshold_exact [1, -2, 3] 2 (by decide) (by decide) (Or.inr (by decide))

/-- Elementwise merge step of circuit_probing_prune_scores (lines 66-70 of
circuit_probing.py): per edge, new_circuit = (new_ps >= threshold) & (curr_ps == 0)
and the result is t.where(new_circuit, score, curr_ps). -/
def merge_pass (score threshold : ℚ) (newPs curr : List ℚ) : List ℚ :=
  List.zipWith (fun np cp => if threshold ≤ np ∧ cp = 0 then score else cp) newPs curr

/-- Size loop of circuit_probing_prune_scores (lines 45-70).  n is
len(sorted_circuit_sizes) and idx the running size_idx, so the score written for
the pass at index idx is n - idx (line 65).  train stands for
subnetwork_probing_prune_scores (defined outside the source files): an arbitrary
map from a requested size to the flattened learned scores of that inner training
run.  The assertion all(t.all(ps >= 0) for ps in new_prune_scores.values())
(line 63) is modelled as an Except.error; the per-iteration assertion on line 47
is implied by the validation prelude and cannot fail. -/
def circuit_probing_loop (train : ℤ → List ℚ) (n : ℕ) :
    ℕ → List ℤ → List ℚ → Except String (List ℚ)
  | _, [], curr => .ok curr
  | idx, size :: rest, curr =>
    if (train size).all (fun x => 0 ≤ x) then
      circuit_probing_loop train n (idx + 1) rest
        (merge_pass ((n - idx : ℕ) : ℚ) (prune_scores_threshold (train size) size.toNat)
          (train size) curr)
    else
      .error "assert all(t.all(ps >= 0) for ps in new_prune_scores.values())"

/-- Argument of the circuit_sizes parameter.  The Python annotation is
List[int | Literal["true_size"]], but any runtime value can be passed; nonIntSize
stands for a value of non-integer type, rejected by isinstance(size, int). -/
inductive CircuitSizeArg
  | trueSize
  | intSize (n : ℤ)
  | nonIntSize
deriving DecidableEq

/-- Resolution and validation of one element of circuit_sizes
(circuit_probing.py lines 32-37): the value "true_size" is replaced by
task.true_edge_count after assert task.true_edges is not None, then
assert isinstance(size, int) and size > 0.  trueEdgeCount models
task.true_edge_count, none when task.true_edges is None. -/
def resolve_size (trueEdgeCount : Option ℤ) : CircuitSizeArg → Except String ℤ
  | .trueSize =>
    match trueEdgeCount with
    | none => .error "assert task.true_edges is not None"
    | some n => if 0 < n then .ok n else .error "assert isinstance(size, int) and size > 0"
  | .intSize n => if 0 < n then .ok n else .error "assert isinstance(size, int) and size > 0"
  | .nonIntSize => .error "assert isinstance(size, int) and size > 0"

/-- Accumulation loop of circuit_probing_prune_scores lines 31-37: each element
is resolved and appended in order, failing at the first invalid one. -/
def resolve_sizes (trueEdgeCount : Option ℤ) :
    List CircuitSizeArg → Except String (List ℤ)
  | [] => .ok []
  | a :: rest => do
    let n ← resolve_size trueEdgeCount a
    let ns ← resolve_sizes trueEdgeCount rest
    .ok (n :: ns)

/-- Validation prelude of circuit_probing_prune_scores (lines 31-39): resolve
every requested size, then assert len(set(sizes)) == len(sizes) (no duplicates).
The final assert len(sizes) == len(circuit_sizes) always holds (exactly one
element is appended per iteration) and has no failure case to model. -/
def validate_sizes (trueEdgeCount : Option ℤ) (args : List CircuitSizeArg) :
    Except String (List ℤ) := do
  let sizes ← resolve_sizes trueEdgeCount args
  if sizes.Nodup then .ok sizes else .error "assert len(set(sizes)) == len(sizes)"

/-- Shallow embedding of circuit_probing_prune_scores: validate the requested
sizes, sort them ascending (sorted(sizes), line 40; insertion sort is a stable
ascending sort like Python sorted), start from the zero-initialised PruneScores
over numEdges edges (task.model.new_prune_scores(), outside the source files;
the spec records that the artifact is "created empty (or zero-initialized)"),
and run the size loop. -/
def circuit_probing_prune_scores (train : ℤ → List ℚ) (numEdges : ℕ)
    (trueEdgeCount : Option ℤ) (args : List CircuitSizeArg) :
    Except String (List ℚ) := do
  let sizes ← validate_sizes trueEdgeCount args
  let sorted_circuit_sizes := List.insertionSort (· ≤ ·) sizes
  circuit_probing_loop train sorted_circuit_sizes.length 0 sorted_circuit_sizes
    (List.replicate numEdges 0)

/-- Edge e meets the size-derived threshold of the learned scores of the pass
for a given size: the first conjunct of new_circuit on line 69. -/
def pass_selects (train : ℤ → List ℚ) (size : ℤ) (e : ℕ) : Prop :=
  prune_scores_threshold (train size) size.toNat ≤ (train size).getD e 0

instance (train : ℤ → List ℚ) (size : ℤ) (e : ℕ) :
    Decidable (pass_selects train size e) :=
  inferInstanceAs (Decidable (_ ≤ _))

/-- Index of the first pass (in ascending size order) whose learned scores put
edge e inside that pass's size-k circuit, if any. -/
def first_sel (train : ℤ → List ℚ) (e : ℕ) : List ℤ → Option ℕ
  | [] => none
  | s :: rest =>
    if pass_selects train s e then some 0 else (first_sel train e rest).map (· + 1)

theorem merge_pass_length (score thr : ℚ) (newPs curr : List ℚ) :
    (merge_pass score thr newPs curr).length = min newPs.length curr.length := by
  simp [merge_pass]

theorem merge_pass_getD (score thr : ℚ) (newPs curr : List ℚ)
    (h : newPs.length = curr.length) (e : ℕ) (he : e < curr.length) :
    (merge_pass score thr newPs curr).getD e 0
      = if thr ≤ newPs.getD e 0 ∧ curr.getD e 0 = 0 then score
        else curr.getD e 0 := by
  have hm : e < (merge_pass score thr newPs curr).length := by
    rw [merge_pass_length]; omega
  have h1 : e < newPs.length := by omega
  rw [List.getD_eq_getElem _ _ hm, List.getD_eq_getElem _ _ h1,
    List.getD_eq_getElem _ _ he]
  simp [merge_pass, List.getElem_zipWith]

theorem replicate_getD (n e : ℕ) : (List.replicate n (0:ℚ)).getD e 0 = 0 := by
  rcases Nat.lt_or_ge e n with h | h
  · rw [List.getD_eq_getElem _ _ (by simpa using h)]
    simp
  · rw [List.getD_eq_default _ _ (by simpa using h)]

theorem first_sel_lt_length (train : ℤ → List ℚ) (e : ℕ) :
    ∀ (sizes : List ℤ) (i : ℕ), first_sel train e sizes = some i → i < sizes.length := by
  intro sizes
  induction sizes with
  | nil => intro i h; simp [first_sel] at h
  | cons s rest ih =>
    intro i h
    by_cases hsel : pass_selects train s e
    · rw [first_sel, if_pos hsel] at h
      simp at h ⊢
      omega
    · rw [first_sel, if_neg hsel] at h
      rcases Option.map_eq_some'.mp h with ⟨j, hj, rfl⟩
      have := ih j hj
      simp
      omega

/-- Characterization of the circuit-probing size loop: when every inner run
returns nonnegative scores of the right length, the loop succeeds and the final
value of each edge is determined by the first pass that selects it — the value
already present if it is nonzero, else n - (index of the first selecting pass),
else 0. -/
theorem circuit_probing_loop_spec (train : ℤ → List ℚ) (numEdges n : ℕ)
    (sizes : List ℤ) : ∀ (idx : ℕ) (curr : List ℚ),
    (∀ s ∈ sizes, (train s).length = numEdges) →
    (∀ s ∈ sizes, ∀ x ∈ train s, 0 ≤ x) →
    curr.length = numEdges →
    idx + sizes.length ≤ n →
    ∃ res, circuit_probing_loop train n idx sizes curr = .ok res ∧
      res.length = numEdges ∧
      ∀ e, e < numEdges →
        res.getD e 0 = if curr.getD e 0 = 0 then
            (match first_sel train e sizes with
             | some j => ((n - (idx + j) : ℕ) : ℚ)
             | none => 0)
          else curr.getD e 0 := by
  induction sizes with
  | nil =>
    intro idx curr _ _ hcurr _
    refine ⟨curr, rfl, hcurr, ?_⟩
    intro e _
    by_cases h : curr.getD e 0 = 0
    · rw [if_pos h, h]; rfl
    · rw [if_neg h]
  | cons size rest ih =>
    intro idx curr hlen hnn hcurr hn
    have hlen0 : (train size).length = numEdges := hlen size (by simp)
    have hall : ((train size).all (fun x => 0 ≤ x)) = true := by
      apply List.all_eq_true.mpr
      intro x hx
      simpa using hnn size (by simp) x hx
    have hstep : circuit_probing_loop train n idx (size :: rest) curr
        = circuit_probing_loop train n (idx + 1) rest
            (merge_pass ((n - idx : ℕ) : ℚ)
              (prune_scores_threshold (train size) size.toNat) (train size) curr) := by
      rw [circuit_probing_loop, if_pos hall]
    set curr' := merge_pass ((n - idx : ℕ) : ℚ)
      (prune_scores_threshold (train size) size.toNat) (train size) curr with hc'
    have hcurr' : curr'.length = numEdges := by
      rw [hc', merge_pass_length, hlen0, hcurr]
      omega
    rcases ih (idx + 1) curr' (fun s hs => hlen s (by simp [hs]))
        (fun s hs => hnn s (by simp [hs])) hcurr' (by simp at hn ⊢; omega)
      with ⟨res, hres, hreslen, hchar⟩
    refine ⟨res, hstep ▸ hres, hreslen, ?_⟩
    intro e he
    have hcurrD : curr'.getD e 0
        = if prune_scores_threshold (train size) size.toNat ≤ (train size).getD e 0
              ∧ curr.getD e 0 = 0
          then ((n - idx : ℕ) : ℚ) else curr.getD e 0 := by
      rw [hc']
      exact merge_pass_getD _ _ _ _ (by omega) e (by omega)
    have hchar' := hchar e he
    by_cases hc : curr.getD e 0 = 0
    · rw [if_pos hc]
      by_cases hsel : pass_selects train size e
      · have hval : curr'.getD e 0 = ((n - idx : ℕ) : ℚ) := by
          rw [hcurrD, if_pos ⟨hsel, hc⟩]
        have hne : curr'.getD e 0 ≠ 0 := by
          rw [hval]
          have hidx : idx < n := by simp at hn; omega
          exact Nat.cast_ne_zero.mpr (by omega)
        rw [first_sel, if_pos hsel]
        rw [hchar', if_neg hne, hval]
        norm_num
      · have hval : curr'.getD e 0 = curr.getD e 0 := by
          rw [hcurrD, if_neg (by intro hcon; exact hsel hcon.1)]
        rw [first_sel, if_neg hsel]
        rw [hchar', hval, if_pos hc]
        cases hfs : first_sel train e rest with
        | none => simp
        | some j =>
          simp only [Option.map_some']
          have : idx + 1 + j = idx + (j + 1) := by omega
          rw [this]
    · rw [if_neg hc]
      have hval : curr'.getD e 0 = curr.getD e 0 := by
        rw [hcurrD, if_neg (by intro hcon; exact hc hcon.2)]
      rw [hchar', hval, if_neg hc]

theorem except_bind_ok {α β : Type} (a : α) (f : α → Except String β) :
    (Except.ok a >>= f) = f a := rfl

theorem except_bind_error {α β : Type} (msg : String) (f : α → Except String β) :
    ((Except.error msg : Except String α) >>= f) = Except.error msg := rfl

theorem resolve_size_pos (tec : Option ℤ) (a : CircuitSizeArg) (m : ℤ)
    (h : resolve_size tec a = .ok m) : 0 < m := by
  cases a with
  | trueSize =>
    cases tec with
    | none => exact Except.noConfusion h
    | some v =>
      simp only [resolve_size] at h
      by_cases hv : 0 < v
      · rw [if_pos hv] at h
        injection h with h'
        omega
      · rw [if_neg hv] at h
        exact Except.noConfusion h
  | intSize v =>
    simp only [resolve_size] at h
    by_cases hv : 0 < v
    · rw [if_pos hv] at h
      injection h with h'
      omega
    · rw [if_neg hv] at h
      exact Except.noConfusion h
  | nonIntSize => exact Except.noConfusion h

theorem resolve_sizes_map_intSize (tec : Option ℤ) (sizes : List ℤ)
    (hpos : ∀ s ∈ sizes, 0 < s) :
    resolve_sizes tec (sizes.map .intSize) = .ok sizes := by
  induction sizes with
  | nil => rfl
  | cons s rest ih =>
    have h1 : 0 < s := hpos s (by simp)
    have h2 := ih (fun x hx => hpos x (by simp [hx]))
    simp only [List.map_cons, resolve_sizes, resolve_size, if_pos h1,
      except_bind_ok, h2]

theorem resolve_sizes_ok (tec : Option ℤ) (args : List CircuitSizeArg) :
    ∀ (sizes : List ℤ), resolve_sizes tec args = .ok sizes →
      sizes.length = args.length ∧
      ∀ k, ∀ hk : k < args.length, resolve_size tec args[k] = .ok (sizes.getD k 0) := by
  induction args with
  | nil =>
    intro sizes h
    cases h
    exact ⟨rfl, fun k hk => absurd hk (by simp)⟩
  | cons a rest ih =>
    intro sizes h
    rw [resolve_sizes] at h
    cases ha : resolve_size tec a with
    | error msg =>
      rw [ha, except_bind_error] at h
      exact Except.noConfusion h
    | ok m =>
      rw [ha, except_bind_ok] at h
      cases hr : resolve_sizes tec rest with
      | error msg =>
        rw [hr, except_bind_error] at h
        exact Except.noConfusion h
      | ok ms =>
        rw [hr, except_bind_ok] at h
        injection h with h'
        subst h'
        rcases ih ms hr with ⟨hl, hp⟩
        refine ⟨by simp [hl], ?_⟩
        intro k hk
        cases k with
        | zero => simpa using ha
        | succ j =>
          have hj : j < rest.length := by simp at hk; omega
          simpa using hp j hj

theorem resolve_sizes_error_of_bad (tec : Option ℤ) (args : List CircuitSizeArg)
    (h : ∃ a ∈ args, ∃ msg, resolve_size tec a = .error msg) :
    ∃ msg, resolve_sizes tec args = .error msg := by
  induction args with
  | nil => simp at h
  | cons a rest ih =>
    cases ha : resolve_size tec a with
    | error msg =>
      exact ⟨msg, by rw [resolve_sizes, ha, except_bind_error]⟩
    | ok m =>
      rcases h with ⟨b, hb, msg, hbad⟩
      rcases List.mem_cons.mp hb with rfl | hbrest
      · rw [ha] at hbad
        exact Except.noConfusion hbad
      · rcases ih ⟨b, hbrest, msg, hbad⟩ with ⟨msg2, hr⟩
        refine ⟨msg2, ?_⟩
        rw [resolve_sizes, ha, except_bind_ok, hr, except_bind_error]

theorem validate_sizes_ok (tec : Option ℤ) (args : List CircuitSizeArg)
    (sizes : List ℤ) (h : validate_sizes tec args = .ok sizes) :
    resolve_sizes tec args = .ok sizes ∧ sizes.Nodup := by
  rw [validate_sizes] at h
  cases hr : resolve_sizes tec args with
  | error msg =>
    rw [hr, except_bind_error] at h
    exact Except.noConfusion h
  | ok ns =>
    rw [hr, except_bind_ok] at h
    by_cases hnd : ns.Nodup
    · rw [if_pos hnd] at h
      injection h with h'
      subst h'
      exact ⟨rfl, hnd⟩
    · rw [if_neg hnd] at h
      exact Except.noConfusion h

theorem validate_sizes_error_of_dup (tec : Option ℤ) (args : List CircuitSizeArg)
    (sizes : List ℤ) (hr : resolve_sizes tec args = .ok sizes)
    (hnd : ¬ sizes.Nodup) :
    validate_sizes tec args = .error "assert len(set(sizes)) == len(sizes)" := by
  rw [validate_sizes, hr, except_bind_ok, if_neg hnd]

theorem validate_sizes_ok_of_good (tec : Option ℤ) (args : List CircuitSizeArg)
    (sizes : List ℤ) (hr : resolve_sizes tec args = .ok sizes)
    (hnd : sizes.Nodup) : validate_sizes tec args = .ok sizes := by
  rw [validate_sizes, hr, except_bind_ok, if_pos hnd]

theorem validate_sizes_error_of_bad_resolve (tec : Option ℤ)
    (args : List CircuitSizeArg) (msg : String)
    (hr : resolve_sizes tec args = .error msg) :
    validate_sizes tec args = .error msg := by
  rw [validate_sizes, hr, except_bind_error]

theorem circuit_probing_propagates_error (train : ℤ → List ℚ) (numEdges : ℕ)
    (tec : Option ℤ) (args : List CircuitSizeArg) (msg : String)
    (h : validate_sizes tec args = .error msg) :
    circuit_probing_prune_scores train numEdges tec args = .error msg := by
  rw [circuit_probing_prune_scores, h, except_bind_error]

/-- Claim C9: circuit_probing_prune_scores fails with a fatal assertion before
any training whenever the resolved requested sizes are not distinct positive
integers.  First conjunct: whenever validation succeeds, the returned size list
is exactly the element-by-element resolution of the request — same length, same
order, all entries positive and pairwise distinct (nothing coerced or
deduplicated).  Second conjunct: whenever some element fails to resolve (a
non-integer, a non-positive integer, or "true_size" without known true edges)
or the resolved sizes contain a duplicate, the whole call returns the assertion
error for every possible inner-training behaviour — i.e. before any training. -/
theorem circuit_probing_size_precondition (tec : Option ℤ)
    (args : List CircuitSizeArg) :
    (∀ sizes, validate_sizes tec args = .ok sizes →
        sizes.length = args.length ∧
        (∀ k, ∀ hk : k < args.length, resolve_size tec args[k] = .ok (sizes.getD k 0)) ∧
        sizes.Nodup ∧ (∀ s ∈ sizes, 0 < s)) ∧
    (((∃ a ∈ args, ∃ msg, resolve_size tec a = .error msg) ∨
        (∃ sizes, resolve_sizes tec args = .ok sizes ∧ ¬ sizes.Nodup)) →
      ∀ train numEdges, ∃ msg,
        circuit_probing_prune_scores train numEdges tec args = .error msg) := by
  constructor
  · intro sizes h
    rcases validate_sizes_ok tec args sizes h with ⟨hr, hnd⟩
    rcases resolve_sizes_ok tec args sizes hr with ⟨hl, hp⟩
    refine ⟨hl, hp, hnd, ?_⟩
    intro s hs
    rcases List.mem_iff_getElem.mp hs with ⟨k, hk, hks⟩
    have hk' : k < args.length := by omega
    have := hp k hk'
    rw [List.getD_eq_getElem _ _ hk, hks] at this
    exact resolve_size_pos tec args[k] s this
  · intro hbad train numEdges
    rcases hbad with hfail | ⟨sizes, hr, hnd⟩
    · rcases resolve_sizes_error_of_bad tec args hfail with ⟨msg, hmsg⟩
      exact ⟨msg, circuit_probing_propagates_error train numEdges tec args msg
        (validate_sizes_error_of_bad_resolve tec args msg hmsg)⟩
    · exact ⟨_, circuit_probing_propagates_error train numEdges tec args _
        (validate_sizes_error_of_dup tec args sizes hr hnd)⟩

/-- Witness for claim C9: with duplicated requested sizes [2, 2] the call fails
with an assertion error for a concrete inner-training stub, and with the valid
request [2, 1] validation returns exactly [2, 1]. -/
theorem circuit_probing_size_precondition_witness :
    (∃ msg, circuit_probing_prune_scores (fun _ => []) 0 none
        [CircuitSizeArg.intSize 2, CircuitSizeArg.intSize 2] = .error msg) ∧
    ([(2:ℤ), 1].length = [CircuitSizeArg.intSize 2, CircuitSizeArg.intSize 1].length ∧
      (∀ k, ∀ hk : k < [CircuitSizeArg.intSize 2, CircuitSizeArg.intSize 1].length,
        resolve_size none [CircuitSizeArg.intSize 2, CircuitSizeArg.intSize 1][k]
          = .ok ([(2:ℤ), 1].getD k 0)) ∧
      [(2:ℤ), 1].Nodup ∧ (∀ s ∈ [(2:ℤ), 1], 0 < s)) :=
  ⟨(circuit_probing_size_precondition none
      [CircuitSizeArg.intSize 2, CircuitSizeArg.intSize 2]).2
      (Or.inr ⟨[2, 2], rfl, by decide⟩) (fun _ => []) 0,
   (circuit_probing_size_precondition none
      [CircuitSizeArg.intSize 2, CircuitSizeArg.intSize 1]).1 [2, 1] rfl⟩

theorem insertionSort_eq_of_sorted (sizes : List ℤ) (h : sizes.Sorted (· ≤ ·)) :
    List.insertionSort (· ≤ ·) sizes = sizes :=
  List.eq_of_perm_of_sorted (List.perm_insertionSort _ _)
    (List.sorted_insertionSort _ _) h

/-- Claim C1: for every ascending sequence of distinct positive requested sizes
and every possible inner-training behaviour, an edge first put inside a circuit
during the pass at index i (a smaller size) holds, in the final PruneScores,
exactly the score n - i written during that pass, untouched by every later
larger-size pass; and any edge first selected during a later pass j > i ends
with a strictly smaller final score. -/
theorem circuit_probing_first_found_wins (train : ℤ → List ℚ) (numEdges : ℕ)
    (sizes : List ℤ) (hpos : ∀ s ∈ sizes, 0 < s) (hasc : sizes.Chain' (· < ·))
    (hlen : ∀ s ∈ sizes, (train s).length = numEdges)
    (hnn : ∀ s ∈ sizes, ∀ x ∈ train s, 0 ≤ x)
    (e i : ℕ) (he : e < numEdges)
    (hsel : first_sel train e sizes = some i) :
    ∃ res, circuit_probing_prune_scores train numEdges none
        (sizes.map .intSize) = .ok res ∧
      res.getD e 0 = ((sizes.length - i : ℕ) : ℚ) ∧
      ∀ e' j, e' < numEdges → first_sel train e' sizes = some j → i < j →
        res.getD e' 0 < res.getD e 0 := by
  have hpair : sizes.Pairwise (· < ·) := List.chain'_iff_pairwise.mp hasc
  have hnodup : sizes.Nodup := hpair.imp (fun h => ne_of_lt h)
  have hsorted : sizes.Sorted (· ≤ ·) := hpair.imp (fun h => le_of_lt h)
  have hval : validate_sizes none (sizes.map .intSize) = .ok sizes :=
    validate_sizes_ok_of_good _ _ _
      (resolve_sizes_map_intSize none sizes hpos) hnodup
  rcases circuit_probing_loop_spec train numEdges sizes.length sizes 0
      (List.replicate numEdges 0) hlen hnn (by simp) (by omega)
    with ⟨res, hres, _, hchar⟩
  have hrun : circuit_probing_prune_scores train numEdges none
      (sizes.map .intSize) = .ok res := by
    simp only [circuit_probing_prune_scores, hval, except_bind_ok,
      insertionSort_eq_of_sorted sizes hsorted]
    exact hres
  refine ⟨res, hrun, ?_, ?_⟩
  · have h0 := hchar e he
    rw [replicate_getD, if_pos rfl, hsel] at h0
    simpa using h0
  · intro e' j he' hsel' hij
    have h1 := hchar e' he'
    rw [replicate_getD, if_pos rfl, hsel'] at h1
    have h0 := hchar e he
    rw [replicate_getD, if_pos rfl, hsel] at h0
    have hjn : j < sizes.length := first_sel_lt_length train e' sizes j hsel'
    rw [h0, h1]
    simp only [Nat.zero_add]
    exact_mod_cast Nat.sub_lt_sub_left (by omega) hij

/-- Witness for claim C1: two edges, ascending sizes [1, 2]; the inner run for
size 1 selects edge 0, the run for size 2 selects both; edge 0 keeps score 2
from the first pass and edge 1, first selected in the second pass, gets the
strictly smaller score 1. -/
theorem circuit_probing_first_found_wins_witness :
    ∃ res, circuit_probing_prune_scores
        (fun s => if s = 1 then [1, 0] else [1, 1]) 2 none
        (([1, 2] : List ℤ).map .intSize) = .ok res ∧
      res.getD 0 0 = ((([1, 2] : List ℤ).length - 0 : ℕ) : ℚ) ∧
      ∀ e' j, e' < 2 →
        first_sel (fun s => if s = 1 then [1, 0] else [1, 1]) e' [1, 2] = some j →
        0 < j → res.getD e' 0 < res.getD 0 0 :=
  circuit_probing_first_found_wins (fun s => if s = 1 then [1, 0] else [1, 1]) 2
    [1, 2] (by decide) (by norm_num [List.chain'_cons, List.chain'_singleton])
    (by decide) (by decide) 0 0 (by decide) (by decide)

/-- Claim C10: for every run over n distinct positive requested sizes (any
order; the function sorts them ascending) and every inner-training behaviour
with nonnegative scores, every per-edge value of the returned PruneScores is a
natural number at most n: exactly n - i for an edge first selected during the
pass at index i of the ascending order, and 0 for an edge selected by no pass.
The merge scores written are n - i >= 1, so a written edge is never treated as
unscored by a later pass. -/
theorem circuit_probing_scores_range (train : ℤ → List ℚ) (numEdges : ℕ)
    (sizes : List ℤ) (hpos : ∀ s ∈ sizes, 0 < s) (hnodup : sizes.Nodup)
    (hlen : ∀ s ∈ sizes, (train s).length = numEdges)
    (hnn : ∀ s ∈ sizes, ∀ x ∈ train s, 0 ≤ x) :
    ∃ res, circuit_probing_prune_scores train numEdges none
        (sizes.map .intSize) = .ok res ∧
      res.length = numEdges ∧
      ∀ e, e < numEdges →
        (res.getD e 0
          = match first_sel train e (List.insertionSort (· ≤ ·) sizes) with
            | some i => ((sizes.length - i : ℕ) : ℚ)
            | none => 0) ∧
        ∃ v : ℕ, v ≤ sizes.length ∧ res.getD e 0 = (v : ℚ) := by
  have hperm : (List.insertionSort (· ≤ ·) sizes).Perm sizes :=
    List.perm_insertionSort _ _
  have hslen : (List.insertionSort (· ≤ ·) sizes).length = sizes.length :=
    hperm.length_eq
  have hval : validate_sizes none (sizes.map .intSize) = .ok sizes :=
    validate_sizes_ok_of_good _ _ _
      (resolve_sizes_map_intSize none sizes hpos) hnodup
  rcases circuit_probing_loop_spec train numEdges
      (List.insertionSort (· ≤ ·) sizes).length (List.insertionSort (· ≤ ·) sizes)
      0 (List.replicate numEdges 0)
      (fun s hs => hlen s (hperm.mem_iff.mp hs))
      (fun s hs => hnn s (hperm.mem_iff.mp hs)) (by simp) (by omega)
    with ⟨res, hres, hreslen, hchar⟩
  have hrun : circuit_probing_prune_scores train numEdges none
      (sizes.map .intSize) = .ok res := by
    simp only [circuit_probing_prune_scores, hval, except_bind_ok]
    exact hres
  refine ⟨res, hrun, hreslen, ?_⟩
  intro e he
  have h0 := hchar e he
  rw [replicate_getD, if_pos rfl] at h0
  constructor
  · rw [h0]
    cases first_sel train e (List.insertionSort (· ≤ ·) sizes) with
    | none => rfl
    | some i => simp [hslen]
  · rw [h0]
    cases hfs : first_sel train e (List.insertionSort (· ≤ ·) sizes) with
    | none => exact ⟨0, by omega, by simp⟩
    | some i =>
      refine ⟨sizes.length - i, by omega, ?_⟩
      simp [hslen]

/-- Witness for claim C10: two edges, requested sizes [2, 1] given in descending
order; the final scores are 2 for edge 0 (first selected by the size-1 pass)
and 1 for edge 1 (first selected by the size-2 pass), both naturals at most 2. -/
theorem circuit_probing_scores_range_witness :
    ∃ res, circuit_probing_prune_scores (fun _ => [1, 0]) 2 none
        (([2, 1] : List ℤ).map .intSize) = .ok res ∧
      res.length = 2 ∧
      ∀ e, e < 2 →
        (res.getD e 0
          = match first_sel (fun _ => [1, 0]) e
              (List.insertionSort (· ≤ ·) ([2, 1] : List ℤ)) with
            | some i => ((([2, 1] : List ℤ).length - i : ℕ) : ℚ)
            | none => 0) ∧
        ∃ v : ℕ, v ≤ ([2, 1] : List ℤ).length ∧ res.getD e 0 = (v : ℚ) :=
  circuit_probing_scores_range (fun _ => [1, 0]) 2 [2, 1] (by decide) (by decide)
    (by decide) (by decide)

/-- Mask forcing of the same-under-knockout step:
t.where(circ, patch.data, t.full_like(patch.data, v), out=patch.data) keeps the
learnable value where circ holds and writes the saturating constant v elsewhere
(train_same_under_knockouts.py lines 120-123 with v = 99, lines 128-131 with
v = -99). -/
def force_masks (circ : List Bool) (masks : List ℚ) (v : ℚ) : List ℚ :=
  List.zipWith (fun c m => if c then m else v) circ masks

/-- Mask states of one batch step of train_same_under_knockout_prune_scores
(lines 119-133): passOne is the state live during the first forward pass
(producing circuit_logprobs), passTwo the state live during the second
(producing model_logprobs, obtained by overwriting the current state again),
and after is the state the parameters hold when the backward/optimizer update
of the step runs; no restoring write exists in the loop body. -/
structure SukStepTrace where
  passOne : List ℚ
  passTwo : List ℚ
  after : List ℚ

/-- One batch step's mask-state evolution: force the out-of-circuit entries to
99 (fully patched), run the first forward pass, overwrite them with -99 (fully
unpatched), run the second forward pass, and leave the state as is. -/
def suk_batch_step (circ : List Bool) (masks : List ℚ) : SukStepTrace :=
  let m1 := force_masks circ masks 99
  let m2 := force_masks circ m1 (-99)
  ⟨m1, m2, m2⟩

/-- In-circuit membership of line 103:
circ_masks = [algo_ps[m].abs() >= circuit_threshold for m in patch_masks.keys()],
with circuit_threshold = prune_scores_threshold(algo_ps, circuit_size)
(line 90). -/
def circ_masks (algo_ps : List ℚ) (circuit_size : ℕ) : List Bool :=
  algo_ps.map (fun s => prune_scores_threshold algo_ps circuit_size ≤ |s|)

/-- Target knockout count n_target = int(circuit_size / 5) (line 92); Python
int() of this nonnegative quotient is the floor. -/
def n_target (circuit_size : ℕ) : ℕ := circuit_size / 5

/-- Regularization term reg_term = t.relu(knockouts_samples.sum() - n_target) /
n_target (line 139).  ksum stands for knockouts_samples.sum(), the sum of one
sample_hard_concrete draw over all mask entries (the sampler is outside the
source files).  Dividing by n_target = 0 yields a non-finite tensor in torch
(0/0 = NaN, positive/0 = Inf), modelled as none.  t.relu is the map
x ↦ max(x, 0), written with an explicit conditional. -/
def relu (x : ℚ) : ℚ := if 0 ≤ x then x else 0

theorem relu_eq_max (x : ℚ) : relu x = max x 0 := by
  rw [relu]
  rcases le_or_lt 0 x with h | h
  · rw [if_pos h, max_eq_left h]
  · rw [if_neg (not_le.mpr h), max_eq_right (le_of_lt h)]

def suk_reg_term (nt : ℕ) (ksum : ℚ) : Option ℚ :=
  if nt = 0 then none else some (relu (ksum - (nt : ℚ)) / (nt : ℚ))

/-- Loss of one step (lines 134-142): kl_div_term =
-multibatch_kl_div(circuit_logprobs, model_logprobs) — kl stands for the KL
divergence value, computed by library code outside the source files — and
loss = kl_div_term + reg_term * regularize_lambda. -/
def suk_loss (kl ksum lam : ℚ) (circuit_size : ℕ) : Option ℚ :=
  (suk_reg_term (n_target circuit_size) ksum).map (fun r => -kl + r * lam)

/-- Modelled from the spec: the claimed loss formula, with n_target =
circuit_size / 5 read as exact division, for comparison against the embedded
code. -/
def suk_loss_claimed (kl ksum lam : ℚ) (circuit_size : ℕ) : ℚ :=
  -kl + (relu (ksum - (circuit_size : ℚ) / 5) / ((circuit_size : ℚ) / 5)) * lam

/-- Counterexample to claim C2 as stated: at circuit_size = 6, kl = 0,
lambda = 1 and sampled knockout sum 11/10, the code computes n_target =
int(6/5) = 1 and loss 1/10, while the claimed formula with n_target = 6/5 gives
relu(11/10 - 6/5) = 0, hence loss 0. -/
theorem suk_loss_floor_cex :
    suk_loss 0 (11/10) 1 6 = some (1/10) ∧ suk_loss_claimed 0 (11/10) 1 6 = 0 ∧
      suk_loss 0 (11/10) 1 6 ≠ some (suk_loss_claimed 0 (11/10) 1 6) := by
  have h1 : suk_loss 0 (11/10) 1 6 = some (1/10) := by
    simp only [suk_loss, n_target, suk_reg_term, relu]
    norm_num
  have h2 : suk_loss_claimed 0 (11/10) 1 6 = 0 := by
    simp only [suk_loss_claimed, relu]
    norm_num
  refine ⟨h1, h2, ?_⟩
  rw [h1, h2]
  intro hc
  injection hc with hc'
  norm_num at hc'

/-- Claim C2 amended: in each optimization step the loss equals
-KL(circuit_logprobs, model_logprobs) + regularize_lambda *
relu(ksum - n_target) / n_target with n_target = floor(circuit_size / 5),
provided circuit_size >= 5 so that n_target >= 1 and the division is
well-defined. -/
theorem suk_loss_eq (kl ksum lam : ℚ) (circuit_size : ℕ) (h : 5 ≤ circuit_size) :
    suk_loss kl ksum lam circuit_size
      = some (-kl + (relu (ksum - ((circuit_size / 5 : ℕ) : ℚ))
          / ((circuit_size / 5 : ℕ) : ℚ)) * lam) := by
  have hnt : n_target circuit_size ≠ 0 := by
    rw [n_target]
    omega
  rw [suk_loss, suk_reg_term, if_neg hnt]
  rfl

/-- Witness for claim C2 (amended) at circuit_size = 10, kl = 2, lambda = 3,
ksum = 7/2: n_target = 2 and the loss is -2 + (3/4) * 3. -/
theorem suk_loss_eq_witness :
    suk_loss 2 (7/2) 3 10
      = some (-2 + (relu ((7:ℚ)/2 - ((10 / 5 : ℕ) : ℚ))
          / ((10 / 5 : ℕ) : ℚ)) * 3) :=
  suk_loss_eq 2 (7/2) 3 10 (by decide)

/-- Counterexample to claim C6 as stated: at circuit_size = 3 the code computes
n_target = int(3/5) = 0, the sampled sum 0 satisfies 0 <= n_target, yet the
regularization term relu(0 - 0)/0 is the non-finite tensor 0/0, not zero: the
division is not well-defined. -/
theorem suk_reg_term_zero_target_cex :
    (0:ℚ) ≤ ((n_target 3 : ℕ) : ℚ) ∧ suk_reg_term (n_target 3) 0 = none ∧
      suk_reg_term (n_target 3) 0 ≠ some 0 := by
  refine ⟨by simp [n_target], by simp [n_target, suk_reg_term], ?_⟩
  simp [n_target, suk_reg_term]

/-- Claim C6 amended: for every n_target >= 1 (i.e. circuit_size >= 5) and
every sampled knockout sum at or below n_target, the regularization term is
well-defined and equals zero; at n_target = 0 the term is a 0/0 division
instead (see the counterexample). -/
theorem suk_reg_term_zero (nt : ℕ) (ksum : ℚ) (h1 : 1 ≤ nt)
    (h2 : ksum ≤ (nt : ℚ)) : suk_reg_term nt ksum = some 0 := by
  have hne : nt ≠ 0 := by omega
  have hx : relu (ksum - (nt : ℚ)) = 0 := by
    rw [relu]
    rcases eq_or_lt_of_le h2 with heq | hlt
    · rw [heq]
      simp
    · rw [if_neg (by linarith)]
  rw [suk_reg_term, if_neg hne, hx]
  simp

/-- Witness for claim C6 (amended) at n_target = 2 and sampled sum 3/2. -/
theorem suk_reg_term_zero_witness : suk_reg_term 2 (3/2) = some 0 :=
  suk_reg_term_zero 2 (3/2) (by norm_num) (by norm_num)

theorem force_masks_length (circ : List Bool) (masks : List ℚ) (v : ℚ) :
    (force_masks circ masks v).length = min circ.length masks.length := by
  simp [force_masks]

theorem force_masks_getD (circ : List Bool) (masks : List ℚ) (v : ℚ)
    (h : circ.length = masks.length) (e : ℕ) (he : e < masks.length) :
    (force_masks circ masks v).getD e 0
      = if circ.getD e false then masks.getD e 0 else v := by
  have hm : e < (force_masks circ masks v).length := by
    rw [force_masks_length]
    omega
  have hc : e < circ.length := by omega
  rw [List.getD_eq_getElem _ _ hm, List.getD_eq_getElem _ _ hc,
    List.getD_eq_getElem _ _ he]
  simp [force_masks, List.getElem_zipWith]

/-- Per-entry value of the three mask states of one same-under-knockout batch
step: in-circuit entries hold the current learnable value throughout, while
out-of-circuit entries hold 99 during the first pass and -99 during the second
pass and after the step. -/
theorem suk_batch_step_getD (circ : List Bool) (masks : List ℚ)
    (h : circ.length = masks.length) (e : ℕ) (he : e < masks.length) :
    (suk_batch_step circ masks).passOne.getD e 0
        = (if circ.getD e false then masks.getD e 0 else 99) ∧
    (suk_batch_step circ masks).passTwo.getD e 0
        = (if circ.getD e false then masks.getD e 0 else -99) ∧
    (suk_batch_step circ masks).after.getD e 0
        = (if circ.getD e false then masks.getD e 0 else -99) := by
  have hm1len : (force_masks circ masks 99).length = masks.length := by
    rw [force_masks_length, h, min_self]
  have h1 : (suk_batch_step circ masks).passOne.getD e 0
      = if circ.getD e false then masks.getD e 0 else 99 :=
    force_masks_getD circ masks 99 h e he
  have h2 : (suk_batch_step circ masks).passTwo.getD e 0
      = if circ.getD e false then masks.getD e 0 else -99 := by
    have hpt : (suk_batch_step circ masks).passTwo
        = force_masks circ (force_masks circ masks 99) (-99) := rfl
    rw [hpt, force_masks_getD circ (force_masks circ masks 99) (-99)
      (by rw [hm1len]; exact h) e (by rw [hm1len]; exact he)]
    cases hcase : circ.getD e false with
    | false => simp
    | true =>
      rw [force_masks_getD circ masks 99 h e he, hcase]
      simp
  exact ⟨h1, h2, h2⟩

/-- Claim C4: each batch step of the same-under-knockout loop performs exactly
two forward passes (structurally, the trace of the step body contains the two
model(batch.clean) calls of lines 124 and 132 and no other); during the first
all out-of-circuit mask entries are forced to the fully-patched extreme 99 and
during the second those same entries are forced to the fully-unpatched extreme
-99, while every in-circuit entry holds the same current learnable value in
both passes. -/
theorem suk_step_two_pass (circ : List Bool) (masks : List ℚ)
    (h : circ.length = masks.length) (e : ℕ) (he : e < masks.length) :
    (circ.getD e false = false →
        (suk_batch_step circ masks).passOne.getD e 0 = 99 ∧
        (suk_batch_step circ masks).passTwo.getD e 0 = -99) ∧
    (circ.getD e false = true →
        (suk_batch_step circ masks).passOne.getD e 0 = masks.getD e 0 ∧
        (suk_batch_step circ masks).passTwo.getD e 0 = masks.getD e 0) := by
  rcases suk_batch_step_getD circ masks h e he with ⟨h1, h2, _⟩
  constructor
  · intro hc
    rw [hc] at h1 h2
    exact ⟨by rw [h1]; simp, by rw [h2]; simp⟩
  · intro hc
    rw [hc] at h1 h2
    exact ⟨by rw [h1]; simp, by rw [h2]; simp⟩

/-- Witness for claim C4 at circ = [true, false], masks = [7, 5], entry 1 (an
out-of-circuit edge: forced to 99 then -99). -/
theorem suk_step_two_pass_witness :
    (([true, false] : List Bool).getD 1 false = false →
        (suk_batch_step [true, false] [7, 5]).passOne.getD 1 0 = 99 ∧
        (suk_batch_step [true, false] [7, 5]).passTwo.getD 1 0 = -99) ∧
    (([true, false] : List Bool).getD 1 false = true →
        (suk_batch_step [true, false] [7, 5]).passOne.getD 1 0
          = ([7, 5] : List ℚ).getD 1 0 ∧
        (suk_batch_step [true, false] [7, 5]).passTwo.getD 1 0
          = ([7, 5] : List ℚ).getD 1 0) :=
  suk_step_two_pass [true, false] [7, 5] (by decide) 1 (by decide)

/-- Counterexample to claim C5 as stated: with a single out-of-circuit edge
whose mask parameter holds 5 before the step, after the forcing-and-forward
steps the parameter holds -99 — the second forced saturating value — not its
prior value 5: the loop body contains no restoring write. -/
theorem suk_no_restore_cex :
    (suk_batch_step [false] [5]).after = [-99] ∧
      ¬ (suk_batch_step [false] [5]).after = [5] := by
  constructor
  · rfl
  · intro hc
    have : (-99 : ℚ) = 5 := by
      have h0 : ((-99 : ℚ) :: []).getD 0 0 = ((5 : ℚ) :: []).getD 0 0 := by
        rw [show ((-99 : ℚ) :: []) = (suk_batch_step [false] [5]).after from rfl, hc]
      simpa using h0
    norm_num at this

/-- Claim C5 amended: the forcing is not undone — after the forcing-and-forward
steps of a batch iteration, an overridden (out-of-circuit) mask parameter holds
the last forced saturating value -99, not the value it had before the forcing,
while in-circuit parameters still hold their prior learnable values; the next
iteration overwrites the out-of-circuit entries again, and the values returned
by the procedure are the post-training parameters, not restored ones. -/
theorem suk_forced_masks_persist (circ : List Bool) (masks : List ℚ)
    (h : circ.length = masks.length) (e : ℕ) (he : e < masks.length) :
    (suk_batch_step circ masks).after.getD e 0
      = if circ.getD e false then masks.getD e 0 else -99 :=
  (suk_batch_step_getD circ masks h e he).2.2

/-- Witness for claim C5 (amended) at circ = [false], masks = [5], entry 0. -/
theorem suk_forced_masks_persist_witness :
    (suk_batch_step [false] [5]).after.getD 0 0
      = if ([false] : List Bool).getD 0 false then ([5] : List ℚ).getD 0 0
        else -99 :=
  suk_forced_masks_persist [false] [5] (by decide) 0 (by decide)

/-- Counterexample to claim C3 as stated: take baseline scores [3, 1] and
circuit size 1, so the in-circuit set is [true, false].  With current learnable
mask values [7, 5], during both forward passes the in-circuit edge keeps its
learnable value 7 — it is not forced to a saturating extreme — while the
out-of-circuit edge is forced to 99 and then -99 regardless of its learnable
value 5.  The learnable masks therefore act on the in-circuit edges, not on a
subset of the out-of-circuit edges as the claim states. -/
theorem suk_knockout_direction_cex :
    circ_masks [3, 1] 1 = [true, false] ∧
    (suk_batch_step (circ_masks [3, 1] 1) [7, 5]).passOne = [7, 99] ∧
    (suk_batch_step (circ_masks [3, 1] 1) [7, 5]).passTwo = [7, -99] ∧
    ¬ ((7 : ℚ) = 99 ∨ (7 : ℚ) = -99) ∧ ¬ ((99 : ℚ) = 5 ∨ (-99 : ℚ) = 5) := by
  refine ⟨by decide, by decide, by decide, by norm_num, by norm_num⟩

/-- Claim C3 amended: the in-circuit edges are those at or above the
size-derived threshold of the baseline prune scores (line 103); during both
forward passes of a step the out-of-circuit edges are the forced ones (fully
patched at 99 in the circuit pass, fully unpatched at -99 in the full-model
pass) and the learnable mask values apply to the in-circuit edges, so the
trained knockout set consists of in-circuit edges — matching the docstring
"Learn a subset of the circuit to knockout". -/
theorem suk_knockout_set_semantics (algo_ps masks : List ℚ) (circuit_size : ℕ)
    (h : algo_ps.length = masks.length) (e : ℕ) (he : e < masks.length) :
    (prune_scores_threshold algo_ps circuit_size ≤ |algo_ps.getD e 0| →
       (suk_batch_step (circ_masks algo_ps circuit_size) masks).passOne.getD e 0
           = masks.getD e 0 ∧
       (suk_batch_step (circ_masks algo_ps circuit_size) masks).passTwo.getD e 0
           = masks.getD e 0) ∧
    (¬ prune_scores_threshold algo_ps circuit_size ≤ |algo_ps.getD e 0| →
       (suk_batch_step (circ_masks algo_ps circuit_size) masks).passOne.getD e 0
           = 99 ∧
       (suk_batch_step (circ_masks algo_ps circuit_size) masks).passTwo.getD e 0
           = -99) := by
  have hclen : (circ_masks algo_ps circuit_size).length = masks.length := by
    rw [circ_masks, List.length_map, h]
  have hea : e < algo_ps.length := by omega
  have hcget : (circ_masks algo_ps circuit_size).getD e false
      = decide (prune_scores_threshold algo_ps circuit_size ≤ |algo_ps.getD e 0|) := by
    rw [circ_masks, List.getD_eq_getElem _ _ (by rw [List.length_map]; exact hea),
      List.getElem_map, List.getD_eq_getElem _ _ hea]
  rcases suk_batch_step_getD (circ_masks algo_ps circuit_size) masks hclen e he
    with ⟨h1, h2, _⟩
  rw [hcget] at h1 h2
  constructor
  · intro hsel
    have hd : decide (prune_scores_threshold algo_ps circuit_size
        ≤ |algo_ps.getD e 0|) = true := decide_eq_true hsel
    rw [h1, h2, if_pos hd, if_pos hd]
    exact ⟨rfl, rfl⟩
  · intro hsel
    have hd : ¬ decide (prune_scores_threshold algo_ps circuit_size
        ≤ |algo_ps.getD e 0|) = true := by
      simp only [decide_eq_true_eq]
      exact hsel
    rw [h1, h2, if_neg hd, if_neg hd]
    exact ⟨rfl, rfl⟩

/-- Witness for claim C3 (amended) at baseline scores [3, 1], circuit size 1,
learnable masks [7, 5], entry 0 (the in-circuit edge). -/
theorem suk_knockout_set_semantics_witness :
    (prune_scores_threshold [3, 1] 1 ≤ |([3, 1] : List ℚ).getD 0 0| →
       (suk_batch_step (circ_masks [3, 1] 1) [7, 5]).passOne.getD 0 0
           = ([7, 5] : List ℚ).getD 0 0 ∧
       (suk_batch_step (circ_masks [3, 1] 1) [7, 5]).passTwo.getD 0 0
           = ([7, 5] : List ℚ).getD 0 0) ∧
    (¬ prune_scores_threshold [3, 1] 1 ≤ |([3, 1] : List ℚ).getD 0 0| →
       (suk_batch_step (circ_masks [3, 1] 1) [7, 5]).passOne.getD 0 0 = 99 ∧
       (suk_batch_step (circ_masks [3, 1] 1) [7, 5]).passTwo.getD 0 0 = -99) :=
  suk_knockout_set_semantics [3, 1] [7, 5] 1 (by decide) 0 (by decide)

/-- Hard-concrete distribution constants of train_same_under_knockouts.py line
70: mask_p, left, right, temp = 0.9, -0.1, 1.1, 2 / 3. -/
noncomputable def mask_p : ℝ := 0.9

/-- Left stretch bound (line 70). -/
noncomputable def left : ℝ := -0.1

/-- Right stretch bound (line 70). -/
noncomputable def right : ℝ := 1.1

/-- Temperature (line 70); recorded for completeness, unused by the
initialization constant. -/
noncomputable def temp : ℝ := 2 / 3

/-- Line 71: p = (mask_p - left) / (right - left). -/
noncomputable def p : ℝ := (mask_p - left) / (right - left)

/-- Line 72: init_mask_val = math.log(p / (1 - p)). -/
noncomputable def init_mask_val : ℝ := Real.log (p / (1 - p))

/-- Default init_val of circuit_probing_prune_scores (circuit_probing.py line
22): init_val: float = -init_mask_val.  The constant is imported there from
subnetwork_probing (outside the source files), which the spec describes by the
same formula as lines 70-72. -/
noncomputable def circuit_probing_init_val : ℝ := -init_mask_val

/-- Mask value written at the start of same-under-knockout training (line 108):
set_all_masks(model, val=-init_mask_val). -/
noncomputable def suk_start_mask_val : ℝ := -init_mask_val

/-- Modelled from the spec: the initial open probability corresponding to a
mask logit, inverting "logit = ln(p/(1-p)) with p = (prior - left)/(right -
left)", i.e. prior = left + (right - left) * sigmoid(logit). -/
noncomputable def open_prob (logit : ℝ) : ℝ :=
  left + (right - left) * (1 / (1 + Real.exp (-logit)))

theorem p_ratio : p / (1 - p) = 5 := by
  rw [p, mask_p, left, right]
  norm_num

theorem open_prob_init_mask_val : open_prob init_mask_val = mask_p := by
  rw [open_prob, init_mask_val, p_ratio,
    Real.exp_neg, Real.exp_log (by norm_num : (0:ℝ) < 5)]
  rw [left, right, mask_p]
  norm_num

theorem open_prob_neg_init_mask_val : open_prob (-init_mask_val) = 0.1 := by
  rw [open_prob, init_mask_val, p_ratio, neg_neg,
    Real.exp_log (by norm_num : (0:ℝ) < 5)]
  rw [left, right]
  norm_num

/-- Counterexample to claim C7 as stated: the mask values actually set at the
start of circuit probing (default init_val = -init_mask_val, circuit_probing.py
line 22) and of same-under-knockout training (line 108) are the NEGATION of
ln(p/(1-p)), and correspond to an initial open probability of 0.1, not 0.9. -/
theorem init_open_prob_cex :
    open_prob circuit_probing_init_val = 0.1 ∧
    open_prob suk_start_mask_val = 0.1 ∧
    ¬ open_prob circuit_probing_init_val = 0.9 ∧
    ¬ open_prob suk_start_mask_val = 0.9 := by
  have h1 : open_prob circuit_probing_init_val = 0.1 := by
    rw [circuit_probing_init_val]
    exact open_prob_neg_init_mask_val
  have h2 : open_prob suk_start_mask_val = 0.1 := by
    rw [suk_start_mask_val]
    exact open_prob_neg_init_mask_val
  refine ⟨h1, h2, ?_, ?_⟩
  · rw [h1]
    norm_num
  · rw [h2]
    norm_num

/-- Claim C7 amended: the constant init_mask_val is ln(p/(1-p)) with p = (0.9 -
(-0.1))/(1.1 - (-0.1)) and corresponds to an open probability equal to the
target prior 0.9; but the value actually set at the start of circuit probing
(its default init_val) and of same-under-knockout training is -init_mask_val,
corresponding to an initial open probability of 0.1. -/
theorem init_mask_val_open_prob :
    init_mask_val = Real.log (p / (1 - p)) ∧
    p = (mask_p - left) / (right - left) ∧
    open_prob init_mask_val = 0.9 ∧
    circuit_probing_init_val = -init_mask_val ∧
    suk_start_mask_val = -init_mask_val ∧
    open_prob circuit_probing_init_val = 0.1 ∧
    open_prob suk_start_mask_val = 0.1 := by
  refine ⟨rfl, rfl, ?_, rfl, rfl, ?_, ?_⟩
  · rw [open_prob_init_mask_val, mask_p]
  · rw [circuit_probing_init_val]
    exact open_prob_neg_init_mask_val
  · rw [suk_start_mask_val]
    exact open_prob_neg_init_mask_val

end AutoCircuit
